import Mathlib

/-!
Shallow embedding of `auth/passkey.go` from the zxdev/server repository.

Bytes are modelled as `Nat` values below 256, byte strings as `List Nat`,
machine integers as `Nat`/`Int` with explicit `% 2 ^ w` where overflow
matters.  Instants are modelled as `Int` nanoseconds counted from the Go
zero time (January 1, year 1 UTC), which is the reference point of
`time.Time.Round`; `time.Duration` values are `Int` nanoseconds.
-/

namespace PassKeySpec

set_option maxRecDepth 2000000

set_option maxHeartbeats 4000000

/-! ### Bit and byte helpers -/

/-- 32-bit left rotation (the `bits.RotateLeft32` / SHA-1 `ROTL` operation). -/
def rotl32 (x s : Nat) : Nat := ((x <<< s) ||| (x >>> (32 - s))) % 2 ^ 32

/-- Big-endian byte encoding of `n` into `count` bytes (most significant first). -/
def beBytes (count n : Nat) : List Nat :=
  (List.range count).map (fun j => n / 2 ^ (8 * (count - 1 - j)) % 256)

/-- Little-endian byte encoding of `n` into `count` bytes
(`binary.LittleEndian.PutUint64` with `count = 8`). -/
def leBytes (count n : Nat) : List Nat :=
  (List.range count).map (fun j => n / 2 ^ (8 * j) % 256)

/-- `binary.LittleEndian.Uint32(h[n:n+4])`: little-endian 32-bit read of the
four bytes of `h` starting at index `n` (out-of-range reads give 0; the
development proves the real reads are in bounds). -/
def leU32At (h : List Nat) (n : Nat) : Nat :=
  h.getD n 0 + 2 ^ 8 * h.getD (n + 1) 0 + 2 ^ 16 * h.getD (n + 2) 0 +
    2 ^ 24 * h.getD (n + 3) 0

/-- Split a byte string into 64-byte blocks, with a structural fuel argument
so that the definition reduces in the kernel; the fuel is the list length,
always enough since every step consumes at least one element. -/
def chunksAux : Nat → List Nat → List (List Nat)
  | _, [] => []
  | 0, _ :: _ => []
  | fuel + 1, l@(_ :: _) => l.take 64 :: chunksAux fuel (l.drop 64)

/-- Split a byte string into 64-byte blocks (the SHA-1 block loop). -/
def chunks64 (l : List Nat) : List (List Nat) := chunksAux l.length l

/-! ### SHA-1 (`crypto/sha1`), FIPS 180-4 -/

/-- Big-endian 32-bit word `j` of a 64-byte block. -/
def beWord (block : List Nat) (j : Nat) : Nat :=
  2 ^ 24 * block.getD (4 * j) 0 + 2 ^ 16 * block.getD (4 * j + 1) 0 +
    2 ^ 8 * block.getD (4 * j + 2) 0 + block.getD (4 * j + 3) 0

/-- SHA-1 message schedule: 16 block words extended to 80 words, each later
word the 1-bit rotation of the XOR of words 3, 8, 14 and 16 places back. -/
def sha1Schedule (block : List Nat) : List Nat :=
  let w16 := (List.range 16).map (beWord block)
  (List.range 64).foldl
    (fun w _ =>
      w ++ [rotl32 ((w.getD (w.length - 3) 0) ^^^ (w.getD (w.length - 8) 0) ^^^
        (w.getD (w.length - 14) 0) ^^^ (w.getD (w.length - 16) 0)) 1])
    w16

/-- One SHA-1 round: state `(a,b,c,d,e)`, round index `i`, schedule word `w`. -/
def sha1Step (i w : Nat) (st : Nat × Nat × Nat × Nat × Nat) :
    Nat × Nat × Nat × Nat × Nat :=
  let (a, b, c, d, e) := st
  let f :=
    if i < 20 then (b &&& c) ||| (((2 ^ 32 - 1) ^^^ b) &&& d)
    else if i < 40 then b ^^^ c ^^^ d
    else if i < 60 then (b &&& c) ||| (b &&& d) ||| (c &&& d)
    else b ^^^ c ^^^ d
  let k :=
    if i < 20 then 0x5A827999
    else if i < 40 then 0x6ED9EBA1
    else if i < 60 then 0x8F1BBCDC
    else 0xCA62C1D6
  ((rotl32 a 5 + f + e + k + w) % 2 ^ 32, a, rotl32 b 30, c, d)

/-- SHA-1 compression of one 64-byte block into the running digest state. -/
def sha1Compress (hs : Nat × Nat × Nat × Nat × Nat) (block : List Nat) :
    Nat × Nat × Nat × Nat × Nat :=
  let (h0, h1, h2, h3, h4) := hs
  let (a, b, c, d, e) :=
    (sha1Schedule block).enum.foldl (fun st iw => sha1Step iw.1 iw.2 st)
      (h0, h1, h2, h3, h4)
  ((h0 + a) % 2 ^ 32, (h1 + b) % 2 ^ 32, (h2 + c) % 2 ^ 32,
    (h3 + d) % 2 ^ 32, (h4 + e) % 2 ^ 32)

/-- SHA-1 of a byte string: pad to a multiple of 64 bytes
(`0x80`, zeros, 8-byte big-endian bit length), compress each block,
output the five state words big-endian (20 bytes). -/
def sha1 (msg : List Nat) : List Nat :=
  let padded := msg ++ [0x80] ++ List.replicate ((119 - msg.length % 64) % 64) 0 ++
    beBytes 8 (8 * msg.length)
  match (chunks64 padded).foldl sha1Compress
    (0x67452301, 0xEFCDAB89, 0x98BADCFE, 0x10325476, 0xC3D2E1F0) with
  | (a, b, c, d, e) =>
      beBytes 4 a ++ beBytes 4 b ++ beBytes 4 c ++ beBytes 4 d ++ beBytes 4 e

/-! ### HMAC (`crypto/hmac`), RFC 2104 with SHA-1 (block size 64) -/

/-- `hmac.New(sha1.New, key)` followed by `Write(msg)` and `Sum(nil)`:
keys longer than the block size are hashed first, the key is zero-padded to
64 bytes, and the digest is `SHA1(opad ⊕ key ∥ SHA1(ipad ⊕ key ∥ msg))`. -/
def hmacSha1 (key msg : List Nat) : List Nat :=
  let k0 := if 64 < key.length then sha1 key else key
  let kp := k0 ++ List.replicate (64 - k0.length) 0
  sha1 ((kp.map (fun b => b ^^^ 0x5c)) ++ sha1 ((kp.map (fun b => b ^^^ 0x36)) ++ msg))

/-! ### Go time semantics

An instant `t : Int` is nanoseconds from the Go zero time (January 1,
year 1 UTC); a duration is `Int` nanoseconds.  `time.Time.Round` rounds to
the nearest multiple of the duration counted from the zero time, halfway
values rounding up, and returns the instant unchanged for non-positive
durations.  `time.Time.Unix` is the floor of the seconds-from-zero-time,
shifted by the 62135596800 s between the zero time and the Unix epoch. -/

/-- `time.Time.Round(d)`: nearest multiple of `d` since the zero time,
halfway rounds up; `d ≤ 0` leaves `t` unchanged. -/
def goRound (t d : Int) : Int :=
  if d ≤ 0 then t
  else if t % d + t % d < d then t - t % d
  else t + (d - t % d)

/-- `time.Time.Unix()`: seconds since the Unix epoch (floor), as an integer. -/
def unixSec (t : Int) : Int := t / 1000000000 - 62135596800

/-- `uint64(x)` applied to a (signed) integer: two's-complement wrap. -/
def u64ofInt (x : Int) : Nat := (x % 2 ^ 64).toNat

/-- `uint32(x)` applied to a (signed) integer: two's-complement wrap. -/
def u32ofInt (x : Int) : Nat := (x % 2 ^ 32).toNat

/-- Reduction of an integer into the `int64` range `[-2^63, 2^63)` by
two's-complement wraparound, the behavior of Go `int64` arithmetic such as
`time.Duration(a) * time.Second` on overflow. -/
def int64wrap (x : Int) : Int := (x + 2 ^ 63) % 2 ^ 64 - 2 ^ 63

/-! ### Token derivation (`passkey.go`, `func (pk *PassKey) token()`)

One loop iteration of `token()` for slot `i` is, with `off = i - 1`:
`bs = LittleEndian.PutUint64(uint64(now.Add(off*interval).Round(interval).Unix()))`,
`h = HMAC-SHA1(key, bs)`, `n = h[19] & 0xf`,
`tokens[i] = LittleEndian.Uint32(h[n : n+4])`. -/

/-- The 8-byte HMAC message of one `token()` iteration. -/
def tokenMsg (now ivl off : Int) : List Nat :=
  leBytes 8 (u64ofInt (unixSec (goRound (now + off * ivl) ivl)))

/-- The 20-byte HMAC-SHA1 digest of one `token()` iteration. -/
def tokenDigest (key : List Nat) (now ivl off : Int) : List Nat :=
  hmacSha1 key (tokenMsg now ivl off)

/-- `h[19] & 0xf`: the low nibble of digest byte 19, the extraction index. -/
def extractIndex (h : List Nat) : Nat := h.getD 19 0 % 16

/-- `binary.LittleEndian.Uint32(h[n : n+4])` at `n = h[19] & 0xf`. -/
def extractToken (h : List Nat) : Nat := leU32At h (extractIndex h)

/-- The token of one `token()` iteration: little-endian 32-bit read of the
digest at the index given by the low nibble of digest byte 19. -/
def tokenDeriv (key : List Nat) (now ivl off : Int) : Nat :=
  extractToken (tokenDigest key now ivl off)

/-! ### PassKey state and methods -/

/-- `PassKey` structure: interval (ns), 20-byte key, three token slots
(`tokens 0` previous, `tokens 1` current, `tokens 2` next). -/
structure PassKey where
  interval : Int
  key : List Nat
  tokens : Fin 3 → Nat

/-- `func (pk *PassKey) token()`: store into each slot `i` the token derived
with offset `i - 1` at the current instant.  (Go reads the clock once per
slot inside the loop; the model takes the refresh instant as one `now`.) -/
def PassKey.token (pk : PassKey) (now : Int) : PassKey :=
  { pk with tokens := fun i => tokenDeriv pk.key now pk.interval ((i.val : Int) - 1) }

/-- Argument of `Interval` (`interface{}`): `nil`, a `time.Duration`,
or an `int` number of seconds; any other type behaves like `nil`. -/
inductive IntervalArg where
  | nothing
  | dur (d : Int)
  | secs (n : Int)

/-- `func (pk *PassKey) Interval(interval interface{})`: set the duration —
an `int` argument means seconds, converted by `time.Duration(a) * time.Second`,
an `int64` multiplication that wraps on overflow — replace a zero result by
one minute, regenerate the tokens. -/
def PassKey.Interval (pk : PassKey) (a : IntervalArg) (now : Int) : PassKey :=
  let ivl :=
    match a with
    | .nothing => pk.interval
    | .dur d => d
    | .secs n => int64wrap (n * 1000000000)
  let ivl := if ivl = 0 then 60000000000 else ivl
  PassKey.token { pk with interval := ivl } now

/-- `copy(dst[:], src)` into a 20-byte array: overwrite the first
`min (src.length) 20` bytes, keep the rest. -/
def copy20 (dst src : List Nat) : List Nat :=
  src.take 20 ++ dst.drop (min src.length 20)

/-- `strings.ToUpper` on one byte, exact for ASCII input (Go's function is
Unicode-aware: on non-ASCII input it decodes UTF-8 and applies Unicode case
mappings, which can change the byte length — U+0131 uppercases to `I` — so
the theorems characterizing string configuration carry an ASCII hypothesis). -/
def toUpperByte (c : Nat) : Nat := if 97 ≤ c ∧ c ≤ 122 then c - 32 else c

/-- ASCII lowercasing of one byte, for stating case-insensitivity. -/
def toLowerByte (c : Nat) : Nat := if 65 ≤ c ∧ c ≤ 90 then c + 32 else c

/-! ### Base32 (`encoding/base32`, `StdEncoding.WithPadding(NoPadding)`)

The repository only encodes the 20-byte key and only decodes 32-character
strings, so groups are always full: the model covers inputs whose length
is a multiple of 5 (encode) or 8 (decode). -/

/-- Standard alphabet `ABCDEFGHIJKLMNOPQRSTUVWXYZ234567`: value `i`
maps to byte `65 + i` for `i < 26` and to byte `50 + (i - 26)` above. -/
def encodeChar (i : Nat) : Nat := if i < 26 then 65 + i else 24 + i

/-- Inverse alphabet lookup: `A`–`Z` (65–90) give 0–25, `2`–`7` (50–55)
give 26–31, anything else is a `CorruptInputError`. -/
def decodeChar (c : Nat) : Option Nat :=
  if 65 ≤ c ∧ c ≤ 90 then some (c - 65)
  else if 50 ≤ c ∧ c ≤ 55 then some (c + 26 - 50)
  else none

/-- Encode one full 5-byte group as 8 alphabet bytes: the group packed
big-endian into a 40-bit value, emitted as eight 5-bit digits, most
significant first (the bit splitting `encoding/base32` performs). -/
def encodeGroup (b0 b1 b2 b3 b4 : Nat) : List Nat :=
  let v := b0 * 2 ^ 32 + b1 * 2 ^ 24 + b2 * 2 ^ 16 + b3 * 2 ^ 8 + b4
  [encodeChar (v / 2 ^ 35 % 32), encodeChar (v / 2 ^ 30 % 32),
    encodeChar (v / 2 ^ 25 % 32), encodeChar (v / 2 ^ 20 % 32),
    encodeChar (v / 2 ^ 15 % 32), encodeChar (v / 2 ^ 10 % 32),
    encodeChar (v / 2 ^ 5 % 32), encodeChar (v % 32)]

/-- Decode one full 8-character group to 5 bytes; any character outside
the alphabet fails the whole decode. -/
def decodeGroup (c0 c1 c2 c3 c4 c5 c6 c7 : Nat) : Option (List Nat) :=
  match decodeChar c0, decodeChar c1, decodeChar c2, decodeChar c3,
      decodeChar c4, decodeChar c5, decodeChar c6, decodeChar c7 with
  | some x0, some x1, some x2, some x3, some x4, some x5, some x6, some x7 =>
      let v := ((((((x0 * 32 + x1) * 32 + x2) * 32 + x3) * 32 + x4) * 32 + x5) *
        32 + x6) * 32 + x7
      some [v / 2 ^ 32 % 256, v / 2 ^ 24 % 256, v / 2 ^ 16 % 256,
        v / 2 ^ 8 % 256, v % 256]
  | _, _, _, _, _, _, _, _ => none

/-- `EncodeToString` for inputs of length a multiple of 5. -/
def base32Encode : List Nat → List Nat
  | b0 :: b1 :: b2 :: b3 :: b4 :: rest => encodeGroup b0 b1 b2 b3 b4 ++ base32Encode rest
  | _ => []

/-- `DecodeString` for inputs of length a multiple of 8 (as after the
length-32 check); other lengths are outside the modelled scope. -/
def base32Decode : List Nat → Option (List Nat)
  | [] => some []
  | c0 :: c1 :: c2 :: c3 :: c4 :: c5 :: c6 :: c7 :: rest =>
      match decodeGroup c0 c1 c2 c3 c4 c5 c6 c7, base32Decode rest with
      | some g, some r => some (g ++ r)
      | _, _ => none
  | _ => none

/-- Argument of `Configure` (`interface{}`): a string (byte list), a
`[20]byte` value, or anything else (the `default` branch, which draws
20 fresh random bytes — modelled by the explicit `rand` parameter). -/
inductive SecretArg where
  | str (s : List Nat)
  | bytes (b : List Nat)
  | other

/-- `func (pk *PassKey) Configure(secret interface{}) *PassKey`: strings
must have byte length 32 and decode as base32 after uppercasing (otherwise
`nil`, modelled `none`); `[20]byte` is copied; otherwise 20 random bytes
are drawn.  Then `pk.Interval(pk.interval)` regenerates the tokens.  The
uppercase step is modelled byte-wise, which is exact for ASCII strings;
see `toUpperByte` for the Unicode caveat on non-ASCII input. -/
def PassKey.Configure (pk : PassKey) (secret : SecretArg) (rand : List Nat)
    (now : Int) : Option PassKey :=
  match secret with
  | .str a =>
      if a.length ≠ 32 then none
      else
        match base32Decode (a.map toUpperByte) with
        | none => none
        | some b =>
            some (PassKey.Interval { pk with key := copy20 pk.key b }
              (.dur pk.interval) now)
  | .bytes a =>
      some (PassKey.Interval { pk with key := copy20 pk.key a }
        (.dur pk.interval) now)
  | .other =>
      some (PassKey.Interval { pk with key := copy20 pk.key rand }
        (.dur pk.interval) now)

/-- `func (pk *PassKey) Secret() string`: base32 encoding of the key. -/
def PassKey.Secret (pk : PassKey) : List Nat := base32Encode pk.key

/-- `func (pk *PassKey) Current() uint32`: the middle slot. -/
def PassKey.Current (pk : PassKey) : Nat := pk.tokens 1

/-- `func (pk *PassKey) Validate(token uint32) bool`: the `switch` matches
the candidate against slot 1 (current), then slot 0 (previous), then
slot 2 (next); `default` returns false. -/
def PassKey.Validate (pk : PassKey) (t : Nat) : Bool :=
  if t = pk.tokens 1 then true
  else if t = pk.tokens 0 then true
  else if t = pk.tokens 2 then true
  else false

/-! ### `Start` (the Refresher loop)

`Start` creates a ticker and loops on `select { ctx.Done → return;
tick.C → pk.token() }`.  A run is modelled by the finite sequence of
select outcomes it observes; the model counts the `token()` calls `Start`
performs over that sequence. -/

/-- One observed outcome of the `select` in `Start`. -/
inductive RefreshEv where
  | tick
  | done

/-- Number of `pk.token()` refreshes `Start` performs over an observed
sequence of select outcomes: none before the first event, none after
cancellation, one per tick. -/
def startRefreshCount : List RefreshEv → Nat
  | [] => 0
  | .done :: _ => 0
  | .tick :: rest => 1 + startRefreshCount rest

/-! ### Middleware (`func (pk *PassKey) IsValid(next http.Handler)`)

The header value is a byte string; `r.Header.Get("token")` returns the
empty string when the header is absent, so absent and empty coincide. -/

/-- Digit-string value: `some` of the decimal value when every byte is an
ASCII digit and there is at least one, `none` otherwise. -/
def digitsVal : List Nat → Option Nat
  | [] => none
  | l => l.foldl (fun acc c => match acc with
      | none => none
      | some v => if 48 ≤ c ∧ c ≤ 57 then some (v * 10 + (c - 48)) else none)
      (some 0)

/-- Leading-sign handling of `strconv`: strip one `-` (45) or `+` (43),
record whether the value is negated. -/
def stripSign (s : List Nat) : Bool × List Nat :=
  match s with
  | 45 :: rest => (true, rest)
  | 43 :: rest => (false, rest)
  | _ => (false, s)

/-- `strconv.Atoi` on a 64-bit platform: optional sign then decimal digits;
a syntax error yields 0 (the error is returned separately and the caller
discards it); out-of-range values are clamped to the `int64` bounds. -/
def goAtoi (s : List Nat) : Int :=
  let signDigits := stripSign s
  match digitsVal signDigits.2 with
  | none => 0
  | some v =>
      let x : Int := if signDigits.1 then -(v : Int) else (v : Int)
      if x < -(2 ^ 63) then -(2 ^ 63)
      else if (2 ^ 63 - 1 : Int) < x then 2 ^ 63 - 1
      else x

/-- Outcome of the middleware on one request. -/
inductive MWResult where
  | forward
  | unauthorized
deriving DecidableEq

/-- The `IsValid` middleware: with a non-empty `token` header, parse with
`Atoi` discarding the error, validate the `uint32` truncation, and forward
on success; otherwise (and with no header) respond 401 with empty body. -/
def PassKey.IsValid (pk : PassKey) (header : List Nat) : MWResult :=
  if 0 < header.length then
    if pk.Validate (u32ofInt (goAtoi header)) then .forward else .unauthorized
  else .unauthorized

/-! ### Spec-side definition and concrete states used by the theorems -/

/-- Modelled from the spec's words (§4.2 step 1): "round the instant down to
the interval boundary" — the floor of `t` to a multiple of `d`, to be
compared with the source's `time.Time.Round`. -/
def specFloorBucket (t d : Int) : Int := t - t % d

/-- A concrete PassKey state: one-minute interval, all-zero 20-byte key,
all-zero token slots. -/
def pkW : PassKey := ⟨60000000000, List.replicate 20 0, fun _ => 0⟩

/-- A concrete PassKey state whose previous slot holds token 0. -/
def pkPrev0 : PassKey := { pkW with tokens := fun i => if i = 0 then 0 else 5 }

/-- A concrete PassKey state whose three slots all hold token 1. -/
def pkAll1 : PassKey := { pkW with tokens := fun _ => 1 }

/-- The byte string `18446744073709551617`, the decimal form of `2^64 + 1`. -/
def sBig : List Nat :=
  [49, 56, 52, 52, 54, 55, 52, 52, 48, 55, 51, 55, 48, 57, 53, 53, 49, 54, 49, 55]

/-- A concrete instant: 30 s past the Unix epoch (in nanoseconds from the Go
zero time), which lies exactly halfway into a one-minute bucket. -/
def nowCx : Int := 62135596800 * 1000000000 + 30 * 1000000000

/-! ### Supporting lemmas -/

theorem beBytes_length (count n : Nat) : (beBytes count n).length = count := by
  simp [beBytes]

theorem sha1_length (msg : List Nat) : (sha1 msg).length = 20 := by
  simp [sha1, beBytes_length]

theorem hmacSha1_length (key msg : List Nat) : (hmacSha1 key msg).length = 20 := by
  simp [hmacSha1, sha1_length]

theorem beBytes_mem_lt {count n b : Nat} (hb : b ∈ beBytes count n) : b < 256 := by
  simp [beBytes] at hb
  obtain ⟨j, _, hj⟩ := hb
  omega

theorem sha1_mem_lt {msg : List Nat} {b : Nat} (hb : b ∈ sha1 msg) : b < 256 := by
  simp only [sha1, List.mem_append] at hb
  rcases hb with ((((h | h) | h) | h) | h) <;> exact beBytes_mem_lt h

theorem hmacSha1_mem_lt {key msg : List Nat} {b : Nat} (hb : b ∈ hmacSha1 key msg) :
    b < 256 := sha1_mem_lt hb

theorem getD_lt_256 {h : List Nat} (hb : ∀ b ∈ h, b < 256) (i : Nat) :
    h.getD i 0 < 256 := by
  rcases Nat.lt_or_ge i h.length with hi | hi
  · rw [List.getD_eq_getElem h 0 hi]
    exact hb _ (List.getElem_mem hi)
  · rw [List.getD_eq_default h 0 hi]
    omega

theorem leU32At_lt {h : List Nat} (hb : ∀ b ∈ h, b < 256) (n : Nat) :
    leU32At h n < 2 ^ 32 := by
  have h0 := getD_lt_256 hb n
  have h1 := getD_lt_256 hb (n + 1)
  have h2 := getD_lt_256 hb (n + 2)
  have h3 := getD_lt_256 hb (n + 3)
  simp only [leU32At]
  omega

/-! ### Claim theorems -/

/-- C9: in every token refresh the extraction index, the low nibble of digest
byte 19, is at most 15, so the four-byte read `h[n:n+4]` stays inside the
20-byte HMAC-SHA1 digest and token generation cannot index out of range. -/
theorem extract_inBounds :
    (∀ key msg : List Nat, (hmacSha1 key msg).length = 20) ∧
    (∀ h : List Nat, extractIndex h ≤ 15 ∧ extractIndex h + 4 ≤ 20) ∧
    (∀ (key : List Nat) (now ivl off : Int),
      extractIndex (tokenDigest key now ivl off) + 4 ≤
        (tokenDigest key now ivl off).length) := by
  refine ⟨hmacSha1_length, fun h => ?_, fun key now ivl off => ?_⟩
  · have : h.getD 19 0 % 16 < 16 := Nat.mod_lt _ (by norm_num)
    simp only [extractIndex]
    omega
  · have : (tokenDigest key now ivl off).getD 19 0 % 16 < 16 :=
      Nat.mod_lt _ (by norm_num)
    simp only [extractIndex, tokenDigest, hmacSha1_length]
    omega

/-- C2: the token is the little-endian uint32 read of the digest at the index
given by the low nibble of digest byte 19; no truncation or modulo is applied,
and every 32-bit value is attained by some 20-byte digest. -/
theorem token_full_range :
    (∀ (key : List Nat) (now ivl off : Int),
      tokenDeriv key now ivl off =
        leU32At (tokenDigest key now ivl off)
          ((tokenDigest key now ivl off).getD 19 0 % 16) ∧
      tokenDeriv key now ivl off < 2 ^ 32) ∧
    (∀ t : Nat, t < 2 ^ 32 →
      ∃ h : List Nat, h.length = 20 ∧ (∀ b ∈ h, b < 256) ∧ extractToken h = t) := by
  constructor
  · intro key now ivl off
    refine ⟨rfl, ?_⟩
    exact leU32At_lt (fun b hb => hmacSha1_mem_lt hb) _
  · intro t ht
    refine ⟨[t % 256, t / 2 ^ 8 % 256, t / 2 ^ 16 % 256, t / 2 ^ 24 % 256,
      0, 0, 0, 0, 0, 0, 0, 0, 0, 0, 0, 0, 0, 0, 0, 0], by simp, ?_, ?_⟩
    · intro b hb
      simp only [List.mem_cons, List.not_mem_nil, or_false] at hb
      rcases hb with h | h | h | h | h <;> omega
    · show leU32At _ _ = t
      have hix : extractIndex [t % 256, t / 2 ^ 8 % 256, t / 2 ^ 16 % 256,
          t / 2 ^ 24 % 256, 0, 0, 0, 0, 0, 0, 0, 0, 0, 0, 0, 0, 0, 0, 0, 0] = 0 := rfl
      rw [hix]
      show t % 256 + 2 ^ 8 * (t / 2 ^ 8 % 256) + 2 ^ 16 * (t / 2 ^ 16 % 256) +
        2 ^ 24 * (t / 2 ^ 24 % 256) = t
      omega

/-- C2 witness: the full-range part at the concrete token 3317539975. -/
theorem token_full_range_spot :
    ∃ h : List Nat, h.length = 20 ∧ (∀ b ∈ h, b < 256) ∧
      extractToken h = 3317539975 :=
  token_full_range.2 3317539975 (by norm_num)

/-- C3: `Validate` is true exactly when the candidate equals one of the
three slots, in any position; after a refresh, tokens derived with offsets
−1, 0, +1 are accepted, and a token derived with offset ±2 that does not
collide with the stored triple is rejected. -/
theorem Validate_window :
    (∀ (pk : PassKey) (t : Nat),
      pk.Validate t = true ↔
        (t = pk.tokens 0 ∨ t = pk.tokens 1 ∨ t = pk.tokens 2)) ∧
    (∀ (pk : PassKey) (now off : Int), off = -1 ∨ off = 0 ∨ off = 1 →
      (pk.token now).Validate (tokenDeriv pk.key now pk.interval off) = true) ∧
    (∀ (pk : PassKey) (now off : Int), off = 2 ∨ off = -2 →
      tokenDeriv pk.key now pk.interval off ≠ tokenDeriv pk.key now pk.interval (-1) →
      tokenDeriv pk.key now pk.interval off ≠ tokenDeriv pk.key now pk.interval 0 →
      tokenDeriv pk.key now pk.interval off ≠ tokenDeriv pk.key now pk.interval 1 →
      (pk.token now).Validate (tokenDeriv pk.key now pk.interval off) = false) := by
  have htok : ∀ (pk : PassKey) (now : Int) (i : Fin 3),
      (pk.token now).tokens i = tokenDeriv pk.key now pk.interval ((i.val : Int) - 1) :=
    fun pk now i => rfl
  have hv0 : (((0 : Fin 3).val : Int) - 1) = -1 := by norm_num
  have hv1 : (((1 : Fin 3).val : Int) - 1) = 0 := by norm_num
  have hv2 : (((2 : Fin 3).val : Int) - 1) = 1 := by norm_num
  refine ⟨fun pk t => ?_, fun pk now off hoff => ?_, fun pk now off hoff h1 h2 h3 => ?_⟩
  · simp only [PassKey.Validate]
    split_ifs with a b c <;> simp_all
  · simp only [PassKey.Validate, htok, hv0, hv1, hv2]
    rcases hoff with rfl | rfl | rfl <;> split_ifs <;> simp_all
  · simp only [PassKey.Validate, htok, hv0, hv1, hv2]
    rcases hoff with rfl | rfl <;> split_ifs <;> simp_all

theorem tokenDeriv_pkW_m1 :
    tokenDeriv pkW.key 0 pkW.interval (-1) = 1111347472 := by decide

theorem tokenDeriv_pkW_0 :
    tokenDeriv pkW.key 0 pkW.interval 0 = 4170765656 := by decide

theorem tokenDeriv_pkW_1 :
    tokenDeriv pkW.key 0 pkW.interval 1 = 1375063450 := by decide

theorem tokenDeriv_pkW_2 :
    tokenDeriv pkW.key 0 pkW.interval 2 = 674331697 := by decide

/-- C3 witness: at the all-zero key, zero instant and one-minute interval,
the offset-0 token is accepted and the offset-2 token (distinct from the
stored triple at this input, by the evaluations above) is rejected. -/
theorem Validate_window_spot :
    (pkW.token 0).Validate (tokenDeriv pkW.key 0 pkW.interval 0) = true ∧
    (pkW.token 0).Validate (tokenDeriv pkW.key 0 pkW.interval 2) = false :=
  ⟨Validate_window.2.1 pkW 0 0 (by norm_num),
   Validate_window.2.2 pkW 0 2 (by norm_num)
     (by rw [tokenDeriv_pkW_2, tokenDeriv_pkW_m1]; decide)
     (by rw [tokenDeriv_pkW_2, tokenDeriv_pkW_0]; decide)
     (by rw [tokenDeriv_pkW_2, tokenDeriv_pkW_1]; decide)⟩

/-- C1 counterexample: at 30 s past the Unix epoch with a one-minute
interval, the code's HMAC message (from `Round`, which here rounds up to
Unix second 60) differs from the spec's round-down bucket (Unix second 0). -/
theorem tokenMsg_floor_cx :
    tokenMsg nowCx 60000000000 0 ≠
      leBytes 8 (u64ofInt (unixSec (specFloorBucket (nowCx + 0 * 60000000000)
        60000000000))) := by decide

/-- C1 amended: the HMAC message is the instant `now + off·interval` rounded
to the NEAREST interval boundary (counted from the Go zero time, halfway
rounding up — not down), taken as a Unix timestamp and encoded as 8
little-endian bytes; the digest is HMAC-SHA1 of that message under the
secret. -/
theorem tokenMsg_hmac (key : List Nat) (now ivl off : Int) (hivl : 0 < ivl) :
    goRound (now + off * ivl) ivl % ivl = 0 ∧
    2 * (now + off * ivl - goRound (now + off * ivl) ivl) < ivl ∧
    2 * (goRound (now + off * ivl) ivl - (now + off * ivl)) ≤ ivl ∧
    tokenMsg now ivl off =
      leBytes 8 (u64ofInt (goRound (now + off * ivl) ivl / 1000000000 -
        62135596800)) ∧
    tokenDigest key now ivl off = hmacSha1 key (tokenMsg now ivl off) := by
  have hd : ¬ ivl ≤ 0 := by omega
  set t := now + off * ivl with ht
  have h0 : 0 ≤ t % ivl := Int.emod_nonneg _ (by omega)
  have h1 : t % ivl < ivl := Int.emod_lt_of_pos _ hivl
  have h2 : ivl * (t / ivl) + t % ivl = t := Int.ediv_add_emod _ _
  by_cases hc : t % ivl + t % ivl < ivl
  · have hgr : goRound t ivl = t - t % ivl := by
      simp only [goRound, if_neg hd, if_pos hc]
    refine ⟨?_, by rw [hgr]; omega, by rw [hgr]; omega, rfl, rfl⟩
    have he : t - t % ivl = ivl * (t / ivl) := by omega
    rw [hgr, he]
    exact Int.mul_emod_right _ _
  · have hgr : goRound t ivl = t + (ivl - t % ivl) := by
      simp only [goRound, if_neg hd, if_neg hc]
    refine ⟨?_, by rw [hgr]; omega, by rw [hgr]; omega, rfl, rfl⟩
    have he : t + (ivl - t % ivl) = ivl * (t / ivl + 1) := by
      rw [Int.mul_add]
      omega
    rw [hgr, he]
    exact Int.mul_emod_right _ _

/-- C1 witness: the amended statement at the empty key, zero instant,
one-second interval and offset 0. -/
theorem tokenMsg_hmac_spot :
    goRound (0 + 0 * 1000000000) 1000000000 % 1000000000 = 0 ∧
    2 * (0 + 0 * 1000000000 - goRound (0 + 0 * 1000000000) 1000000000) <
      1000000000 ∧
    2 * (goRound (0 + 0 * 1000000000) 1000000000 - (0 + 0 * 1000000000)) ≤
      1000000000 ∧
    tokenMsg 0 1000000000 0 =
      leBytes 8 (u64ofInt (goRound (0 + 0 * 1000000000) 1000000000 /
        1000000000 - 62135596800)) ∧
    tokenDigest [] 0 1000000000 0 = hmacSha1 [] (tokenMsg 0 1000000000 0) :=
  tokenMsg_hmac [] 0 1000000000 0 (by norm_num)

theorem Interval_tokens (pk : PassKey) (a : IntervalArg) (now : Int) :
    (pk.Interval a now).tokens = fun i =>
      tokenDeriv (pk.Interval a now).key now (pk.Interval a now).interval
        ((i.val : Int) - 1) := by
  cases a <;> rfl

/-- C8 counterexample: `Interval` applied to the duration −1 stores a
non-positive interval — only zero is replaced by the default, positivity is
not enforced. -/
theorem Interval_pos_cx :
    (pkW.Interval (.dur (-1)) 0).interval = -1 ∧
    ¬ (0 < (pkW.Interval (.dur (-1)) 0).interval) := by
  refine ⟨rfl, ?_⟩
  have h : (pkW.Interval (.dur (-1)) 0).interval = -1 := rfl
  rw [h]
  decide

/-- C8 amended: the interval defaults to 60 s (60·10⁹ ns) when unspecified
or when the stored value comes out zero; any other value, including a
negative one, is kept (positivity is not enforced); an `int` seconds
argument is multiplied into nanoseconds with int64 wraparound, so 2⁵⁵
seconds wraps to zero (hence the default) and 10¹⁰ seconds wraps negative,
while values of at most 9223372036 s convert exactly; and every call
regenerates the token triple from the new interval. -/
theorem Interval_behavior (pk : PassKey) (now : Int) :
    ((pk.Interval .nothing now).interval =
      if pk.interval = 0 then 60000000000 else pk.interval) ∧
    (∀ d : Int, (pk.Interval (.dur d) now).interval =
      if d = 0 then 60000000000 else d) ∧
    (∀ n : Int, (pk.Interval (.secs n) now).interval =
      if int64wrap (n * 1000000000) = 0 then 60000000000
      else int64wrap (n * 1000000000)) ∧
    (∀ n : Int, -9223372036 ≤ n → n ≤ 9223372036 → n ≠ 0 →
      (pk.Interval (.secs n) now).interval = n * 1000000000) ∧
    (pk.Interval (.secs (2 ^ 55)) now).interval = 60000000000 ∧
    (pk.Interval (.secs 10000000000) now).interval = -8446744073709551616 ∧
    (∀ a : IntervalArg, (pk.Interval a now).tokens = fun i =>
      tokenDeriv pk.key now (pk.Interval a now).interval ((i.val : Int) - 1)) := by
  have hsecs : ∀ n : Int, (pk.Interval (.secs n) now).interval =
      if int64wrap (n * 1000000000) = 0 then 60000000000
      else int64wrap (n * 1000000000) := fun n => rfl
  have p63 : (2 : Int) ^ 63 = 9223372036854775808 := by norm_num
  have p64 : (2 : Int) ^ 64 = 18446744073709551616 := by norm_num
  refine ⟨rfl, fun d => rfl, hsecs, fun n h1 h2 h3 => ?_, ?_, ?_, fun a => ?_⟩
  · have hw : int64wrap (n * 1000000000) = n * 1000000000 := by
      simp only [int64wrap, p63, p64]
      omega
    rw [hsecs, hw, if_neg (by omega)]
  · rw [hsecs]
    decide
  · rw [hsecs]
    decide
  · have hkey : (pk.Interval a now).key = pk.key := by cases a <;> rfl
    rw [Interval_tokens, hkey]

/-- C8 witness: the in-range seconds clause at 60 s. -/
theorem Interval_behavior_spot :
    (pkW.Interval (.secs 60) 0).interval = 60 * 1000000000 :=
  (Interval_behavior pkW 0).2.2.2.1 60 (by norm_num) (by norm_num) (by norm_num)

/-- C6 counterexample: a `Start` run cancelled before its first tick has
performed zero refreshes, not one — the loop has no refresh ahead of the
first timer tick. -/
theorem Start_immediate_cx : ¬ (startRefreshCount [RefreshEv.done] = 1) := by
  decide

/-- C6 amended: `Start` performs no refresh of its own before the first
tick — it refreshes once per observed tick and stops at cancellation, so a
run cancelled before any tick performs zero refreshes; the tokens are
nevertheless valid beforehand because construction (`Configure`, via
`Interval`) already generated the token set. -/
theorem Start_refresh_behavior :
    (∀ evs, startRefreshCount (RefreshEv.done :: evs) = 0) ∧
    (∀ evs, startRefreshCount (RefreshEv.tick :: evs) =
      1 + startRefreshCount evs) ∧
    startRefreshCount [] = 0 ∧
    (∀ (pk : PassKey) (secret : SecretArg) (rand : List Nat) (now : Int)
        (pk2 : PassKey), pk.Configure secret rand now = some pk2 →
      pk2.tokens = fun i =>
        tokenDeriv pk2.key now pk2.interval ((i.val : Int) - 1)) := by
  refine ⟨fun evs => rfl, fun evs => rfl, rfl, ?_⟩
  intro pk secret rand now pk2 h
  cases secret with
  | str a =>
      simp only [PassKey.Configure] at h
      split at h
      · exact Option.noConfusion h
      · cases hdec : base32Decode (a.map toUpperByte) with
        | none => rw [hdec] at h; exact Option.noConfusion h
        | some b =>
            rw [hdec] at h
            simp only [Option.some.injEq] at h
            subst h
            exact Interval_tokens _ _ _
  | bytes a =>
      simp only [PassKey.Configure, Option.some.injEq] at h
      subst h
      exact Interval_tokens _ _ _
  | other =>
      simp only [PassKey.Configure, Option.some.injEq] at h
      subst h
      exact Interval_tokens _ _ _

/-- C6 witness: the construction-time token generation, at a concrete
configuration (generated-secret branch, zero instant). -/
theorem Start_refresh_behavior_spot :
    ({ pkW with key := copy20 pkW.key [] }.Interval (.dur pkW.interval) 0).tokens =
      fun i => tokenDeriv
        ({ pkW with key := copy20 pkW.key [] }.Interval (.dur pkW.interval) 0).key 0
        ({ pkW with key := copy20 pkW.key [] }.Interval (.dur pkW.interval) 0).interval
        ((i.val : Int) - 1) :=
  Start_refresh_behavior.2.2.2 pkW .other [] 0 _ rfl

/-- C7 counterexample: with the previous slot holding token 0, the
unparseable header value `x` is forwarded, not rejected with 401 — a parse
failure is not treated as an invalid token. -/
theorem IsValid_unparseable_cx :
    digitsVal [120] = none ∧ pkPrev0.IsValid [120] = MWResult.forward := by
  decide

/-- C7 amended: the middleware reads the `token` header; an absent or empty
header yields 401 with empty body; a non-empty header is parsed by `Atoi`
with the error discarded, so a syntactically invalid value yields candidate
0, and the request is forwarded exactly when `Validate` accepts the
candidate (including candidate 0 when a slot holds 0). -/
theorem IsValid_behavior (pk : PassKey) (hdr : List Nat) :
    (hdr = [] → pk.IsValid hdr = .unauthorized) ∧
    (hdr ≠ [] → pk.IsValid hdr =
      if pk.Validate (u32ofInt (goAtoi hdr)) then .forward else .unauthorized) ∧
    (digitsVal (stripSign hdr).2 = none → goAtoi hdr = 0) ∧
    (hdr ≠ [] → digitsVal (stripSign hdr).2 = none →
      pk.IsValid hdr = if pk.Validate 0 then .forward else .unauthorized) := by
  have hz : digitsVal (stripSign hdr).2 = none → goAtoi hdr = 0 := by
    intro h
    simp only [goAtoi, h]
  have hne : hdr ≠ [] → pk.IsValid hdr =
      if pk.Validate (u32ofInt (goAtoi hdr)) then .forward else .unauthorized := by
    intro h
    have hl : 0 < hdr.length := List.length_pos.mpr h
    simp only [PassKey.IsValid, if_pos hl]
  refine ⟨fun h => by subst h; rfl, hne, hz, fun h hd => ?_⟩
  rw [hne h, hz hd]
  rfl

/-- C7 witness: the amended behavior at the concrete state whose previous
slot holds 0, for the empty header and the header `x`. -/
theorem IsValid_behavior_spot :
    pkPrev0.IsValid [] = MWResult.unauthorized ∧
    pkPrev0.IsValid [120] =
      if pkPrev0.Validate 0 then MWResult.forward else MWResult.unauthorized :=
  ⟨(IsValid_behavior pkPrev0 []).1 rfl,
   (IsValid_behavior pkPrev0 [120]).2.2.2 (by decide) (by decide)⟩

/-- C10 counterexample: the header `18446744073709551617` (2⁶⁴+1) is
clamped by `Atoi` to 2⁶³−1 before the uint32 truncation, so it validates as
4294967295 rather than (2⁶⁴+1) mod 2³² = 1: with every slot holding 1 the
claim predicts acceptance, but the middleware rejects. -/
theorem Atoi_wrap_cx :
    digitsVal (stripSign sBig).2 = some 18446744073709551617 ∧
    (18446744073709551617 : Nat) % 2 ^ 32 = 1 ∧
    pkAll1.Validate 1 = true ∧
    pkAll1.IsValid sBig = MWResult.unauthorized := by
  refine ⟨by decide, by norm_num, by decide, by decide⟩

/-- C10 amended: a syntactically invalid non-empty header yields candidate
0, validated like any candidate; a numeric header whose value fits in int64
is reduced modulo 2³² (negative values wrap two's-complement); a value
above 2⁶³−1 is first clamped there by `Atoi` and only then truncated. -/
theorem Atoi_candidate (pk : PassKey) (s : List Nat) :
    (digitsVal (stripSign s).2 = none → goAtoi s = 0) ∧
    (∀ v : Nat, digitsVal (stripSign s).2 = some v → (v : Int) ≤ 2 ^ 63 - 1 →
      goAtoi s = (if (stripSign s).1 then -(v : Int) else (v : Int)) ∧
      u32ofInt (goAtoi s) =
        (if (stripSign s).1 then (2 ^ 32 - v % 2 ^ 32) % 2 ^ 32
          else v % 2 ^ 32)) ∧
    (∀ v : Nat, digitsVal (stripSign s).2 = some v →
      (2 ^ 63 - 1 : Int) < (v : Int) → (stripSign s).1 = false →
      goAtoi s = 2 ^ 63 - 1) ∧
    (0 < s.length →
      (pk.IsValid s = .forward ↔ pk.Validate (u32ofInt (goAtoi s)) = true)) := by
  refine ⟨fun h => by simp only [goAtoi, h], fun v hv hb => ?_, fun v hv hb hs => ?_,
    fun hl => ?_⟩
  · have p1 : (2 : Int) ^ 32 = 4294967296 := by norm_num
    have p2 : (2 : Nat) ^ 32 = 4294967296 := by norm_num
    cases hneg : (stripSign s).1 with
    | false =>
        simp only [goAtoi, hv, hneg, Bool.false_eq_true, if_false, u32ofInt]
        constructor
        · split_ifs <;> omega
        · split_ifs <;> simp only [p1, p2] <;> omega
    | true =>
        simp only [goAtoi, hv, hneg, if_true, u32ofInt]
        constructor
        · split_ifs <;> omega
        · split_ifs <;> simp only [p1, p2] <;> omega
  · simp only [goAtoi, hv, hs, Bool.false_eq_true, if_false]
    split_ifs <;> omega
  · simp only [PassKey.IsValid, if_pos hl]
    split_ifs with h
    · simp [h]
    · simp [h]

/-- C10 witness: the amended statement at the header `-5`: the candidate is
the two's-complement wrap 2³²−5. -/
theorem Atoi_candidate_spot :
    goAtoi [45, 53] = (if (stripSign [45, 53]).1 then -(5 : Int) else (5 : Int)) ∧
    u32ofInt (goAtoi [45, 53]) =
      (if (stripSign [45, 53]).1 then (2 ^ 32 - 5 % 2 ^ 32) % 2 ^ 32
        else 5 % 2 ^ 32) :=
  (Atoi_candidate pkW [45, 53]).2.1 5 (by decide) (by decide)

theorem decodeChar_encodeChar : ∀ x < 32, decodeChar (encodeChar x) = some x := by
  decide

theorem encodeChar_alpha : ∀ x < 32,
    (65 ≤ encodeChar x ∧ encodeChar x ≤ 90) ∨
    (50 ≤ encodeChar x ∧ encodeChar x ≤ 55) := by
  decide

theorem base32Decode_group (b0 b1 b2 b3 b4 : Nat) (rest : List Nat)
    (h0 : b0 < 256) (h1 : b1 < 256) (h2 : b2 < 256) (h3 : b3 < 256)
    (h4 : b4 < 256) :
    base32Decode (encodeGroup b0 b1 b2 b3 b4 ++ rest) =
      (base32Decode rest).map (fun r => b0 :: b1 :: b2 :: b3 :: b4 :: r) := by
  have m32 : ∀ y : Nat, y % 32 < 32 := fun y => Nat.mod_lt _ (by norm_num)
  simp only [encodeGroup, List.append_eq, List.cons_append, List.nil_append,
    base32Decode, decodeGroup]
  rw [decodeChar_encodeChar _ (m32 _), decodeChar_encodeChar _ (m32 _),
    decodeChar_encodeChar _ (m32 _), decodeChar_encodeChar _ (m32 _),
    decodeChar_encodeChar _ (m32 _), decodeChar_encodeChar _ (m32 _),
    decodeChar_encodeChar _ (m32 _), decodeChar_encodeChar _ (m32 _)]
  cases base32Decode rest with
  | none => rfl
  | some r =>
      simp only [Option.map_some', Option.some.injEq, List.append_eq,
        List.cons_append, List.nil_append, List.cons.injEq, and_true]
      omega

theorem base32_roundtrip : ∀ (n : Nat) (l : List Nat), l.length = 5 * n →
    (∀ b ∈ l, b < 256) →
    base32Decode (base32Encode l) = some l ∧
    (base32Encode l).length = 8 * n ∧
    (∀ c ∈ base32Encode l,
      (65 ≤ c ∧ c ≤ 90) ∨ (50 ≤ c ∧ c ≤ 55)) := by
  intro n
  induction n with
  | zero =>
      intro l hl hb
      have hnil : l = [] := List.length_eq_zero.mp hl
      subst hnil
      exact ⟨rfl, rfl, by simp [base32Encode]⟩
  | succ n ih =>
      intro l hl hb
      rcases l with _ | ⟨b0, _ | ⟨b1, _ | ⟨b2, _ | ⟨b3, _ | ⟨b4, rest⟩⟩⟩⟩⟩ <;>
        simp only [List.length] at hl <;> try omega
      have hrest : rest.length = 5 * n := by omega
      have h0 : b0 < 256 := hb _ (by simp)
      have h1 : b1 < 256 := hb _ (by simp)
      have h2 : b2 < 256 := hb _ (by simp)
      have h3 : b3 < 256 := hb _ (by simp)
      have h4 : b4 < 256 := hb _ (by simp)
      have hb' : ∀ b ∈ rest, b < 256 := fun b hm => hb b (by simp [hm])
      obtain ⟨ihd, ihl, ihc⟩ := ih rest hrest hb'
      have henc : base32Encode (b0 :: b1 :: b2 :: b3 :: b4 :: rest) =
          encodeGroup b0 b1 b2 b3 b4 ++ base32Encode rest := rfl
      refine ⟨?_, ?_, ?_⟩
      · rw [henc, base32Decode_group b0 b1 b2 b3 b4 _ h0 h1 h2 h3 h4, ihd]
        rfl
      · rw [henc, List.length_append, ihl]
        simp [encodeGroup]
        omega
      · intro c hc
        rw [henc] at hc
        rcases List.mem_append.mp hc with hg | hr
        · have m32 : ∀ y : Nat, y % 32 < 32 := fun y => Nat.mod_lt _ (by norm_num)
          simp only [encodeGroup, List.mem_cons, List.not_mem_nil, or_false] at hg
          rcases hg with rfl | rfl | rfl | rfl | rfl | rfl | rfl | rfl <;>
            exact encodeChar_alpha _ (m32 _)
        · exact ihc c hr

theorem map_toUpper_fix (l : List Nat)
    (h : ∀ c ∈ l, (65 ≤ c ∧ c ≤ 90) ∨ (50 ≤ c ∧ c ≤ 55)) :
    l.map toUpperByte = l := by
  induction l with
  | nil => rfl
  | cons c cs ihc =>
      have hc := h c (by simp)
      have hfix : toUpperByte c = c := by
        simp only [toUpperByte]
        split_ifs <;> omega
      simp only [List.map_cons, hfix, List.cons.injEq, true_and]
      exact ihc fun x hx => h x (by simp [hx])

theorem upper_lower (c : Nat) : toUpperByte (toLowerByte c) = toUpperByte c := by
  simp only [toUpperByte, toLowerByte]
  split_ifs <;> omega

/-- C4: `Secret` (Export) of a well-formed state is a 32-character upper-case
base32 string over A–Z2–7; configuring from it reproduces the same secret
(`Export(Construct(Export(s))) = Export(s)`), and configuring from its
lowercased form constructs exactly the same result. -/
theorem Secret_roundtrip (pk pk0 : PassKey) (hk : pk.key.length = 20)
    (hb : ∀ b ∈ pk.key, b < 256) (hk0 : pk0.key.length = 20) :
    pk.Secret.length = 32 ∧
    (∀ c ∈ pk.Secret, (65 ≤ c ∧ c ≤ 90) ∨ (50 ≤ c ∧ c ≤ 55)) ∧
    (∀ (rand : List Nat) (now : Int),
      (pk0.Configure (.str pk.Secret) rand now).map PassKey.Secret =
        some pk.Secret) ∧
    (∀ (rand : List Nat) (now : Int),
      pk0.Configure (.str (pk.Secret.map toLowerByte)) rand now =
        pk0.Configure (.str pk.Secret) rand now) := by
  have h4 : pk.key.length = 5 * 4 := by omega
  obtain ⟨hdec, hlen, hch⟩ := base32_roundtrip 4 pk.key h4 hb
  have hslen : pk.Secret.length = 32 := by
    show (base32Encode pk.key).length = 32
    omega
  have hupper : pk.Secret.map toUpperByte = pk.Secret := map_toUpper_fix _ hch
  have hcfg : ∀ (rand : List Nat) (now : Int),
      pk0.Configure (.str pk.Secret) rand now =
        some (PassKey.Interval { pk0 with key := pk.key }
          (.dur pk0.interval) now) := by
    intro rand now
    have hcopy : copy20 pk0.key pk.key = pk.key := by
      simp only [copy20, hk]
      rw [List.take_of_length_le (by omega), List.drop_eq_nil_of_le (by omega)]
      simp
    simp only [PassKey.Configure, hslen, if_neg (by omega : ¬ (32 : Nat) ≠ 32)]
    rw [show pk.Secret.map toUpperByte = base32Encode pk.key from hupper]
    rw [hdec]
    show some (PassKey.Interval { pk0 with key := copy20 pk0.key pk.key }
      (.dur pk0.interval) now) = _
    rw [hcopy]
  refine ⟨hslen, hch, fun rand now => ?_, fun rand now => ?_⟩
  · rw [hcfg rand now]
    rfl
  · have hlow : (pk.Secret.map toLowerByte).map toUpperByte =
        pk.Secret.map toUpperByte := by
      rw [List.map_map]
      exact List.map_congr_left fun c _ => upper_lower c
    have hlowlen : (pk.Secret.map toLowerByte).length = 32 := by
      rw [List.length_map]
      exact hslen
    simp only [PassKey.Configure, hlowlen, hslen,
      if_neg (by omega : ¬ (32 : Nat) ≠ 32)]
    rw [hlow]

/-- C4 witness: the round-trip parts at the all-zero 20-byte key. -/
theorem Secret_roundtrip_spot :
    pkW.Secret.length = 32 ∧
    (pkW.Configure (.str pkW.Secret) [] 0).map PassKey.Secret =
      some pkW.Secret :=
  ⟨(Secret_roundtrip pkW pkW (by decide) (by decide) (by decide)).1,
   (Secret_roundtrip pkW pkW (by decide) (by decide) (by decide)).2.2.1 [] 0⟩

end PassKeySpec
